import Mathlib

/-!
Verification of the reactive spreadsheet engine in `src/src/app.jsx`
(cyclejs-expr).  The development shallowly embeds the parts of the program
the claims are about:

* JavaScript objects (the Scope and PersistedState mappings) become
  association lists `Obj α` in insertion order; `Obj.set` models
  `R.set(R.lensProp(k), v)` (update in place, append when new) and
  `omitChars` models `R.omit` applied to a *string* argument, exactly as
  the code does in `removeReducer$ = removeProxy$.map(R.omit)`.
* Streams become finite traces (lists of emitted values); the xstream
  operator `dropRepeats(R.equals)` (the repo's `uniq`, app.jsx line 16)
  becomes the list function `uniq`.
* The mathjs expression AST becomes `MathNode`; the external `math.parse`
  is a parameter `parse : String → Option MathNode` (`none` models a parse
  exception caught by `R.tryCatch(parseFormula, parseError)`).
* mathjs numeric values are modelled as `Value := Int`; a JavaScript
  `undefined` value is `Option.none`.  Arithmetic is restricted to the
  operators the claims exercise (+, -, *, unary -); mathjs operators throw
  on an `undefined` operand, modelled by `Except.error`.
-/

/-- mathjs values, modelled as integers (the claims only need exact
arithmetic); a JavaScript `undefined` is represented as `Option.none` at
use sites. -/
abbrev Value := Int

/-- A JavaScript object used as a mapping, in property-insertion order:
the Scope (`name → value`) and PersistedState (`name → formula text`)
mappings of the Sheet. -/
abbrev Obj (α : Type) := List (String × α)

/-- Property read `m[k]`: first entry with key `k`, `none` when absent. -/
def Obj.lookup {α : Type} : Obj α → String → Option α
  | [], _ => none
  | (k, v) :: m, key => if k = key then some v else Obj.lookup m key

/-- `R.set(R.lensProp(key), val, m)` (app.jsx lines 193 and 195): a shallow
clone with `m[key] = val`; an existing key keeps its position, a new key is
appended, matching JavaScript property order. -/
def Obj.set {α : Type} : Obj α → String → α → Obj α
  | [], key, val => [(key, val)]
  | (k, v) :: m, key, val =>
      if k = key then (k, val) :: m else (k, v) :: Obj.set m key val

/-- The keys of the object, in property order. -/
def Obj.keys {α : Type} (m : Obj α) : List String := m.map Prod.fst

/-- The single-character property names a string exposes when Ramda's
`omit` iterates it as an array-like (`names[idx]` on a string yields its
characters). -/
def charKeys (name : String) : List String :=
  name.toList.map (fun c => String.singleton c)

/-- `R.omit(name, m)` with `name` a *string*, as in
`removeReducer$ = removeProxy$.map(R.omit)` (app.jsx line 197): Ramda
indexes `name` like an array, so the keys removed are the single-character
strings of `name`, not `name` itself. -/
def omitChars {α : Type} (name : String) (m : Obj α) : Obj α :=
  m.filter (fun kv => !(charKeys name).contains kv.1)

/-- `dropRepeats(R.equals)` helper: `prev` is the value last emitted;
an incoming value equal to it is suppressed. -/
def uniqAux {α : Type} [DecidableEq α] (prev : α) : List α → List α
  | [] => []
  | x :: xs => if x = prev then uniqAux prev xs else x :: uniqAux x xs

/-- The repo's `uniq = dropRepeats(R.equals)` (app.jsx line 16) on a
finite trace: the first value is emitted, later values only when they
differ from the last emitted one. -/
def uniq {α : Type} [DecidableEq α] : List α → List α
  | [] => []
  | x :: xs => x :: uniqAux x xs

/-- Last element of `p :: xs` (the value an xstream fold or dropRepeats
has last seen). -/
def lastD {α : Type} (p : α) : List α → α
  | [] => p
  | x :: xs => lastD x xs

/-- Names exported by the mathjs namespace object (`import * as math`),
the reservation set of `R.has(R.__, math)`: built-in constants and
functions.  The real object has many more properties; this list models the
representative ones, and every non-reserved name used below avoids it. -/
def mathKeys : List String :=
  ["pi", "e", "tau", "phi", "i", "Infinity", "NaN", "true", "false",
   "sin", "cos", "tan", "asin", "acos", "atan", "sqrt", "cbrt", "abs",
   "add", "subtract", "multiply", "divide", "pow", "exp", "log", "log2",
   "log10", "mod", "max", "min", "sum", "mean", "round", "floor", "ceil",
   "parse", "compile", "format", "matrix", "det", "inv", "random"]

/-- `notReserved = R.complement(R.has(R.__, math))` (app.jsx line 19). -/
def notReserved (name : String) : Bool := !(mathKeys.contains name)

/-- The mathjs expression AST, restricted to the node kinds the formulas
of the claims use: constant numbers, symbol references, and unary/binary
operator or function applications (mathjs `OperatorNode`/`FunctionNode`
with a name and argument nodes). -/
inductive MathNode : Type where
  | num : Int → MathNode
  | sym : String → MathNode
  | op1 : String → MathNode → MathNode
  | op2 : String → MathNode → MathNode → MathNode
deriving DecidableEq, Repr

/-- The `parsed.traverse` loop of `parseFormula` (app.jsx lines 25-30):
depth-first walk pushing `n.name` for every `SymbolNode` whose name is not
reserved.  Note it pushes once per *occurrence*. -/
def collectVars : MathNode → List String
  | .num _ => []
  | .sym s => if notReserved s then [s] else []
  | .op1 _ a => collectVars a
  | .op2 _ a b => collectVars a ++ collectVars b

/-- Every symbol occurrence of the tree in traversal order, reserved or
not (used to state what `collectVars` computes). -/
def preorderSymbols : MathNode → List String
  | .num _ => []
  | .sym s => [s]
  | .op1 _ a => preorderSymbols a
  | .op2 _ a b => preorderSymbols a ++ preorderSymbols b

/-- An ordered set in the spec's sense: insertion order of first
appearance, duplicate occurrences removed. -/
def orderedSet (l : List String) : List String :=
  l.foldl (fun acc x => if acc.contains x then acc else acc ++ [x]) []

/-- The `Formula` value built by `parseFormula`/`parseError`
(app.jsx lines 22-35): `{ text, expr, vars, ok }`.  An invalid formula
(`parseError` returns `{ ok: false }`) carries no usable fields; they are
defaulted here since Lean structures are total. -/
structure Formula : Type where
  text : String
  expr : MathNode
  vars : List String
  ok : Bool
deriving DecidableEq, Repr

/-- `parseError = R.compose(R.always({ ok: false }), warn)` (app.jsx
line 35): the invalid-formula marker (the `warn` side effect is modelled
separately as a diagnostics trace). -/
def parseError : Formula :=
  { text := "", expr := .num 0, vars := [], ok := false }

/-- `parseFormula(text)` (app.jsx lines 22-32), relative to the external
`math.parse` modelled as `parse`: on success, the formula keeps the raw
`text`, its compiled expression, and the traversal-collected `vars`, with
`ok: true`; `none` means `math.parse` threw. -/
def parseFormula (parse : String → Option MathNode) (text : String) :
    Option Formula :=
  (parse text).map
    (fun p => { text := text, expr := p, vars := collectVars p, ok := true })

/-- `R.tryCatch(parseFormula, parseError)` as used in `formula$`
(app.jsx line 107): a parse exception yields the invalid marker. -/
def compile (parse : String → Option MathNode) (text : String) : Formula :=
  match parseFormula parse text with
  | some f => f
  | none => parseError

/-- One snapshot of `lensScope(vars)` (app.jsx lines 43-60) applied to a
scope snapshot: `R.props(vars)` reads each requested name (`undefined`,
i.e. the inner `none`, when absent — the `undefined$` substitution), and
`R.zipObj(vars)` rebuilds an object binding every requested name. -/
def lensScope (vars : List String) (scope : Obj (Option Value)) :
    Obj (Option Value) :=
  vars.map (fun v => (v, (Obj.lookup scope v).join))

/-- The trace of narrowed-scope snapshots `lensScope` emits for a trace of
scope snapshots: one per upstream emission, deduplicated by the final
`.compose(uniq)` (app.jsx line 58). -/
def narrowedTrace (vars : List String) (scopes : List (Obj (Option Value))) :
    List (Obj (Option Value)) :=
  uniq (scopes.map (lensScope vars))

/-- mathjs unary operators on a possibly-`undefined` operand: an
`undefined` (or unknown function) throws, modelled as `Except.error`. -/
def applyOp1 (name : String) : Option Value → Except String (Option Value)
  | some a =>
      match name with
      | "-" => .ok (some (-a))
      | _ => .error ("Unknown function " ++ name)
  | none => .error ("Unexpected type of argument in function " ++ name)

/-- mathjs binary operators; an `undefined` operand throws. -/
def applyOp2 (name : String) :
    Option Value → Option Value → Except String (Option Value)
  | some a, some b =>
      match name with
      | "+" => .ok (some (a + b))
      | "-" => .ok (some (a - b))
      | "*" => .ok (some (a * b))
      | _ => .error ("Unknown function " ++ name)
  | _, _ => .error ("Unexpected type of argument in function " ++ name)

/-- Evaluation of the compiled expression (`f.expr.eval(scope)`,
app.jsx line 116) against a narrowed-scope snapshot: a symbol present in
the scope object yields its value even when that value is `undefined`
(ordinary data); a symbol absent from the object throws, as mathjs does
for an unknown symbol. -/
def evalNode (scope : Obj (Option Value)) :
    MathNode → Except String (Option Value)
  | .num n => .ok (some n)
  | .sym x =>
      match Obj.lookup scope x with
      | some v => .ok v
      | none => .error ("Undefined symbol " ++ x)
  | .op1 name a =>
      match evalNode scope a with
      | .ok va => applyOp1 name va
      | .error err => .error err
  | .op2 name a b =>
      match evalNode scope a, evalNode scope b with
      | .ok va, .ok vb => applyOp2 name va vb
      | .error err, _ => .error err
      | .ok _, .error err => .error err

/-- `R.tryCatch(scope => f.expr.eval(scope), R.compose(R.always(undefined),
warn))` (app.jsx lines 115-118): an evaluation exception becomes the value
`undefined`; the function is total, so no failure reaches the caller. -/
def safeEval (f : MathNode) (scope : Obj (Option Value)) : Option Value :=
  match evalNode scope f with
  | .ok v => v
  | .error _ => none

/-- The `warn` diagnostic the tryCatch handler logs for one evaluation:
the exception message when evaluation throws, nothing otherwise. -/
def evalDiag (f : MathNode) (scope : Obj (Option Value)) : List String :=
  match evalNode scope f with
  | .ok _ => []
  | .error err => [err]

/-- The reducers folded into the Scope and PersistedState mappings
(app.jsx lines 192-205): `formulaReducer$`/`valueReducer$` produce
`R.set(R.lensProp(target.name), ...)` and `removeReducer$` produces
`R.omit(name)`. -/
inductive Reducer (α : Type) : Type where
  | set : String → α → Reducer α
  | omit : String → Reducer α
deriving DecidableEq, Repr

/-- Application of one reducer to the accumulated mapping, as in the two
`.fold((acc, reducer) => reducer(acc), seed)` calls (app.jsx lines 218
and 232). -/
def applyReducer {α : Type} (m : Obj α) : Reducer α → Obj α
  | .set k v => Obj.set m k v
  | .omit name => omitChars name m

/-- The trace an xstream `fold` emits: the seed first, then the
accumulated value after each event. -/
def foldStates {σ ε : Type} (step : σ → ε → σ) (acc : σ) : List ε → List σ
  | [] => [acc]
  | e :: es => acc :: foldStates step (step acc e) es

/-- The `formulaReducer$` events produced while restoring the cells of a
stored mapping `M`: `asCollection` (app.jsx lines 166-182) turns each
`(name, text)` pair into a cell's `initial$`, and the cell's `target$`
publishes `{name, formula: f.text}` where `f` is the compiled formula of
the stored text. -/
def bootstrapTargets (parse : String → Option MathNode) (M : Obj String) :
    List (Reducer String) :=
  M.map (fun kv => Reducer.set kv.1 (compile parse kv.2).text)

/-- JSON.stringify of the PersistedState mapping (app.jsx line 225),
rendering keys and values in property order. -/
def serialize (m : Obj String) : String :=
  "\x7b" ++
    String.intercalate ","
      (m.map (fun kv => "\"" ++ kv.1 ++ "\":\"" ++ kv.2 ++ "\"")) ++
  "\x7d"

/-- The storage write requests `storage$` issues for a trace of folded
PersistedState values: deduplicated by `.compose(uniq)` (app.jsx line 221)
before being serialized into `{key: 'formulas', value}` requests. -/
def storageWrites (states : List (Obj String)) : List (String × String) :=
  (uniq states).map (fun st => ("formulas", serialize st))

/-- The filter applied to interactive name edits only (app.jsx line 77):
`!R.isEmpty(name) && notReserved(name)`. -/
def validNameEdit (n : String) : Bool := (!n.isEmpty) && notReserved n

/-- The trace of `name$` (app.jsx lines 92-98): the merge of the cell's
`initial$.map(R.prop('name'))` (the restore payload, emitted first and
unfiltered) with the filtered interactive edits, deduplicated by
`.compose(uniq)`. -/
def nameTrace (initialName : Option String) (edits : List String) :
    List String :=
  uniq (initialName.toList ++ edits.filter (fun e => validNameEdit e))

/-- The trace of `formula$` (app.jsx lines 101-109) for a trace of raw
formula texts: texts deduplicated by `uniq`, compiled through the
tryCatch, and filtered by `.filter(f => f.ok)` so only valid formulas
propagate. -/
def formulaTrace (parse : String → Option MathNode) (edits : List String) :
    List Formula :=
  ((uniq edits).map (compile parse)).filter (fun f => f.ok)

/-- The `warn` diagnostics logged by `parseError` along the same trace:
one per deduplicated text whose parse throws. -/
def parseDiagnostics (parse : String → Option MathNode)
    (edits : List String) : List String :=
  (uniq edits).filter (fun u => (parse u).isNone)

/-! ### Helper lemmas about `uniq` (dropRepeats) -/

theorem uniqAux_snoc_eq {α : Type} [DecidableEq α] :
    ∀ (xs : List α) (p : α), uniqAux p (xs ++ [lastD p xs]) = uniqAux p xs := by
  intro xs
  induction xs with
  | nil => intro p; simp [uniqAux, lastD]
  | cons x xs ih =>
      intro p
      by_cases h : x = p
      · subst h
        simp only [lastD, List.cons_append, uniqAux, if_pos rfl]
        exact ih x
      · simp only [lastD, List.cons_append, uniqAux, if_neg h]
        exact congrArg (x :: ·) (ih x)

theorem uniqAux_snoc_ne {α : Type} [DecidableEq α] :
    ∀ (xs : List α) (p a : α), a ≠ lastD p xs →
      uniqAux p (xs ++ [a]) = uniqAux p xs ++ [a] := by
  intro xs
  induction xs with
  | nil =>
      intro p a h
      simp only [lastD] at h
      simp [uniqAux, h]
  | cons x xs ih =>
      intro p a h
      simp only [lastD] at h
      by_cases hx : x = p
      · subst hx
        simp only [List.cons_append, uniqAux, if_pos rfl]
        exact ih x a h
      · simp only [List.cons_append, uniqAux, if_neg hx]
        exact congrArg (x :: ·) (ih x a h)

theorem uniq_cons_snoc_eq {α : Type} [DecidableEq α] (x : α) (xs : List α) :
    uniq (x :: (xs ++ [lastD x xs])) = uniq (x :: xs) := by
  simp only [uniq]
  rw [uniqAux_snoc_eq]

theorem uniq_cons_snoc_ne {α : Type} [DecidableEq α] (x a : α) (xs : List α)
    (h : a ≠ lastD x xs) :
    uniq (x :: (xs ++ [a])) = uniq (x :: xs) ++ [a] := by
  simp only [uniq]
  rw [uniqAux_snoc_ne xs x a h]
  rfl

theorem getLast?_eq_lastD {α : Type} :
    ∀ (xs : List α) (x : α), (x :: xs).getLast? = some (lastD x xs) := by
  intro xs
  induction xs with
  | nil => intro x; rfl
  | cons y ys ih =>
      intro x
      rw [List.getLast?_cons_cons]
      exact ih y

theorem mem_uniqAux {α : Type} [DecidableEq α] :
    ∀ (xs : List α) (p x : α), x ∈ uniqAux p xs → x ∈ xs := by
  intro xs
  induction xs with
  | nil => intro p x h; simp [uniqAux] at h
  | cons y ys ih =>
      intro p x h
      simp only [uniqAux] at h
      by_cases hy : y = p
      · rw [if_pos hy] at h
        exact List.mem_cons_of_mem y (ih p x h)
      · rw [if_neg hy] at h
        rcases List.mem_cons.mp h with h1 | h2
        · exact h1 ▸ List.mem_cons_self x ys
        · exact List.mem_cons_of_mem y (ih y x h2)

theorem chain_ne_uniqAux {α : Type} [DecidableEq α] :
    ∀ (xs : List α) (p : α), List.Chain' (· ≠ ·) (p :: uniqAux p xs) := by
  intro xs
  induction xs with
  | nil => intro p; simp [uniqAux]
  | cons x xs ih =>
      intro p
      simp only [uniqAux]
      by_cases h : x = p
      · rw [if_pos h]
        exact ih p
      · rw [if_neg h]
        exact List.Chain'.cons (fun e => h e.symm) (ih x)

theorem chain_ne_uniq {α : Type} [DecidableEq α] (l : List α) :
    List.Chain' (· ≠ ·) (uniq l) := by
  cases l with
  | nil => simp [uniq]
  | cons x xs => exact chain_ne_uniqAux xs x

theorem uniq_snoc_cases {α : Type} [DecidableEq α] (l : List α) (a : α) :
    uniq (l ++ [a]) = uniq l ∨ uniq (l ++ [a]) = uniq l ++ [a] := by
  cases l with
  | nil =>
      right
      simp [uniq, uniqAux]
  | cons x xs =>
      by_cases h : a = lastD x xs
      · left
        rw [List.cons_append, h, uniq_cons_snoc_eq]
      · right
        rw [List.cons_append, uniq_cons_snoc_ne x a xs h]

/-! ### Helper lemmas about `Obj` -/

theorem Obj.lookup_set_self {α : Type} :
    ∀ (m : Obj α) (k : String) (v : α), (Obj.set m k v).lookup k = some v := by
  intro m
  induction m with
  | nil => intro k v; simp [Obj.set, Obj.lookup]
  | cons kv m ih =>
      intro k v
      obtain ⟨a, b⟩ := kv
      by_cases h : a = k
      · simp [Obj.set, Obj.lookup, h]
      · simp only [Obj.set, if_neg h, Obj.lookup]
        exact ih k v

theorem Obj.set_eq_self {α : Type} :
    ∀ (m : Obj α) (k : String) (v : α),
      m.lookup k = some v → Obj.set m k v = m := by
  intro m
  induction m with
  | nil => intro k v h; simp [Obj.lookup] at h
  | cons kv m ih =>
      intro k v h
      obtain ⟨a, b⟩ := kv
      by_cases ha : a = k
      · simp only [Obj.lookup, if_pos ha] at h
        simp only [Obj.set, if_pos ha]
        rw [Option.some.injEq] at h
        rw [h]
      · simp only [Obj.lookup, if_neg ha] at h
        simp only [Obj.set, if_neg ha]
        rw [ih k v h]

theorem Obj.lookup_of_mem_nodup {α : Type} :
    ∀ (m : Obj α) (k : String) (v : α),
      m.keys.Nodup → (k, v) ∈ m → m.lookup k = some v := by
  intro m
  induction m with
  | nil => intro k v _ h; simp at h
  | cons kv m ih =>
      intro k v hnd hmem
      obtain ⟨a, b⟩ := kv
      simp only [Obj.keys, List.map_cons, List.nodup_cons] at hnd
      rcases List.mem_cons.mp hmem with heq | htail
      · rw [Prod.mk.injEq] at heq
        simp [Obj.lookup, heq.1, heq.2]
      · have hak : a ≠ k := by
          intro hak
          apply hnd.1
          subst hak
          exact List.mem_map.mpr ⟨(a, v), htail, rfl⟩
        simp only [Obj.lookup, if_neg hak]
        exact ih k v hnd.2 htail

theorem Obj.mem_keys_set {α : Type} :
    ∀ (m : Obj α) (k : String) (v : α) (x : String),
      x ∈ (Obj.set m k v).keys → x ∈ m.keys ∨ x = k := by
  intro m
  induction m with
  | nil =>
      intro k v x h
      simp only [Obj.set, Obj.keys, List.map_cons, List.map_nil] at h
      right
      rcases List.mem_singleton.mp h with h1
      exact h1
  | cons kv m ih =>
      intro k v x h
      obtain ⟨a, b⟩ := kv
      by_cases ha : a = k
      · simp only [Obj.set, if_pos ha, Obj.keys, List.map_cons] at h
        rcases List.mem_cons.mp h with h1 | h2
        · left; exact h1 ▸ List.mem_cons_self a _
        · left; exact List.mem_cons_of_mem a h2
      · simp only [Obj.set, if_neg ha, Obj.keys, List.map_cons] at h
        rcases List.mem_cons.mp h with h1 | h2
        · left; exact h1 ▸ List.mem_cons_self a _
        · rcases ih k v x h2 with h3 | h4
          · left; exact List.mem_cons_of_mem a h3
          · right; exact h4

theorem Obj.nodup_keys_set {α : Type} :
    ∀ (m : Obj α) (k : String) (v : α),
      m.keys.Nodup → (Obj.set m k v).keys.Nodup := by
  intro m
  induction m with
  | nil => intro k v _; simp [Obj.set, Obj.keys]
  | cons kv m ih =>
      intro k v hnd
      obtain ⟨a, b⟩ := kv
      simp only [Obj.keys, List.map_cons, List.nodup_cons] at hnd
      by_cases ha : a = k
      · simp only [Obj.set, if_pos ha, Obj.keys, List.map_cons,
          List.nodup_cons]
        exact ⟨hnd.1, hnd.2⟩
      · simp only [Obj.set, if_neg ha, Obj.keys, List.map_cons,
          List.nodup_cons]
        constructor
        · intro hx
          rcases Obj.mem_keys_set m k v a hx with h1 | h2
          · exact hnd.1 h1
          · exact ha h2
        · exact ih k v hnd.2

theorem Obj.nodup_keys_omitChars {α : Type} (name : String) (m : Obj α)
    (h : m.keys.Nodup) : (omitChars name m).keys.Nodup := by
  have hsub : (omitChars name m).keys.Sublist m.keys :=
    List.Sublist.map Prod.fst (List.filter_sublist m)
  exact h.sublist hsub

theorem applyReducer_nodup {α : Type} (m : Obj α) (r : Reducer α)
    (h : m.keys.Nodup) : (applyReducer m r).keys.Nodup := by
  cases r
  next k v => exact Obj.nodup_keys_set m k v h
  next name => exact Obj.nodup_keys_omitChars name m h

/-! ### Helper lemmas about `lensScope` -/

theorem lensScope_lookup :
    ∀ (vars : List String) (scope : Obj (Option Value)) (x : String),
      x ∈ vars →
        (lensScope vars scope).lookup x = some ((scope.lookup x).join) := by
  intro vars
  induction vars with
  | nil => intro scope x h; simp at h
  | cons v vs ih =>
      intro scope x h
      rcases List.mem_cons.mp h with h1 | h2
      · subst h1
        simp [lensScope, Obj.lookup]
      · by_cases hv : v = x
        · subst hv
          simp [lensScope, Obj.lookup]
        · simp only [lensScope, List.map_cons, Obj.lookup, if_neg hv]
          exact ih scope x h2

theorem lensScope_congr (vars : List String)
    (s s' : Obj (Option Value))
    (h : ∀ v ∈ vars, (s.lookup v).join = (s'.lookup v).join) :
    lensScope vars s = lensScope vars s' := by
  induction vars with
  | nil => rfl
  | cons v vs ih =>
      simp only [lensScope, List.map_cons]
      rw [h v (List.mem_cons_self v vs)]
      have := ih (fun u hu => h u (List.mem_cons_of_mem v hu))
      simp only [lensScope] at this
      rw [this]

theorem lensScope_ne (vars : List String) (s s' : Obj (Option Value))
    (x : String) (hx : x ∈ vars)
    (h : (s.lookup x).join ≠ (s'.lookup x).join) :
    lensScope vars s ≠ lensScope vars s' := by
  intro heq
  apply h
  have h1 := lensScope_lookup vars s x hx
  have h2 := lensScope_lookup vars s' x hx
  rw [heq, h2] at h1
  exact (Option.some.inj h1).symm

/-! ### Helper lemmas about `foldStates` -/

theorem mem_foldStates_const {σ ε : Type} (step : σ → ε → σ) (M : σ) :
    ∀ (events : List ε), (∀ e ∈ events, step M e = M) →
      ∀ st ∈ foldStates step M events, st = M := by
  intro events
  induction events with
  | nil =>
      intro _ st hst
      simp only [foldStates, List.mem_singleton] at hst
      exact hst
  | cons e es ih =>
      intro h st hst
      simp only [foldStates, h e (List.mem_cons_self e es)] at hst
      rcases List.mem_cons.mp hst with h1 | h2
      · exact h1
      · exact ih (fun u hu => h u (List.mem_cons_of_mem e hu)) st h2

theorem mem_foldStates_nodup {α : Type} :
    ∀ (events : List (Reducer α)) (seed : Obj α), seed.keys.Nodup →
      ∀ st ∈ foldStates applyReducer seed events, st.keys.Nodup := by
  intro events
  induction events with
  | nil =>
      intro seed h st hst
      simp only [foldStates, List.mem_singleton] at hst
      exact hst ▸ h
  | cons e es ih =>
      intro seed h st hst
      simp only [foldStates] at hst
      rcases List.mem_cons.mp hst with h1 | h2
      · exact h1 ▸ h
      · exact ih (applyReducer seed e) (applyReducer_nodup seed e h) st h2

theorem lastD_map {α β : Type} (f : α → β) :
    ∀ (xs : List α) (p : α), lastD (f p) (xs.map f) = f (lastD p xs) := by
  intro xs
  induction xs with
  | nil => intro p; rfl
  | cons x xs ih => intro p; simp only [List.map_cons, lastD]; exact ih x

/-! ### Lemmas about the Formula Compiler -/

theorem collectVars_eq_filter (n : MathNode) :
    collectVars n = (preorderSymbols n).filter (fun s => notReserved s) := by
  induction n with
  | num k => rfl
  | sym s =>
      cases h : notReserved s with
      | true => simp [collectVars, preorderSymbols, h]
      | false => simp [collectVars, preorderSymbols, h]
  | op1 name a ih =>
      simpa only [collectVars, preorderSymbols] using ih
  | op2 name a b iha ihb =>
      simp only [collectVars, preorderSymbols, List.filter_append, iha, ihb]

theorem compile_text_of_parses (parse : String → Option MathNode)
    (t : String) (h : (parse t).isSome) : (compile parse t).text = t := by
  obtain ⟨p, hp⟩ := Option.isSome_iff_exists.mp h
  simp [compile, parseFormula, hp]

theorem compile_not_ok_of_parse_none (parse : String → Option MathNode)
    (t : String) (h : parse t = none) : (compile parse t).ok = false := by
  simp [compile, parseFormula, h, parseError]

/-- A concrete instance of the external mathjs parser, mapping the formula
texts the concrete checks below use to their parse trees (any other text
throws a parse exception, i.e. yields `none`). -/
def demoParse : String → Option MathNode := fun t =>
  if t = "a + a" then some (.op2 "+" (.sym "a") (.sym "a"))
  else if t = "1" then some (.num 1)
  else if t = "a + 1" then some (.op2 "+" (.sym "a") (.num 1))
  else if t = "1 + 2" then some (.op2 "+" (.num 1) (.num 2))
  else if t = "x + 1" then some (.op2 "+" (.sym "x") (.num 1))
  else none

/-- Claim C1, counterexample: the claim says `freeVariables` is an ordered
set with duplicate occurrences of the same name removed, but for the
successfully parsed text "a + a" the traversal of `parseFormula` pushes
the symbol name once per occurrence, so `vars` is `["a", "a"]`, which is
not duplicate-free. -/
theorem C1_counterexample :
    (compile demoParse "a + a").ok = true
    ∧ (compile demoParse "a + a").vars = ["a", "a"]
    ∧ (compile demoParse "a + a").vars
        ≠ orderedSet ((compile demoParse "a + a").vars) := by
  refine ⟨by decide, by decide, by decide⟩

/-- Claim C1, amended: for every formula text that parses successfully,
`compile` returns a `freeVariables` list holding the non-reserved symbol
names of the expression in tree-walk order with one entry per occurrence;
order of appearance is kept but duplicate occurrences are retained, not
removed. -/
theorem C1_freeVariables_occurrences (parse : String → Option MathNode)
    (text : String) (p : MathNode) (h : parse text = some p) :
    (compile parse text).ok = true
    ∧ (compile parse text).vars
        = (preorderSymbols p).filter (fun s => notReserved s) := by
  refine ⟨?_, ?_⟩
  · simp [compile, parseFormula, h]
  · simp only [compile, parseFormula, h, Option.map_some']
    exact collectVars_eq_filter p

theorem C1_freeVariables_occurrences_witness :
    demoParse "a + a" = some (.op2 "+" (.sym "a") (.sym "a"))
    ∧ ((compile demoParse "a + a").ok = true
       ∧ (compile demoParse "a + a").vars
           = (preorderSymbols (.op2 "+" (.sym "a") (.sym "a"))).filter
               (fun s => notReserved s)) :=
  ⟨by decide,
   C1_freeVariables_occurrences demoParse "a + a"
     (.op2 "+" (.sym "a") (.sym "a")) (by decide)⟩

/-- Claim C2, code bug: the claim (and the spec's removal-cleanup
property) says processing cell `c`'s removal signal removes exactly the
key `c`, leaving every other key unchanged.  The code passes the removed
cell's name, a plain string, to `R.omit`, which indexes it like an array
of characters: for a cell named "ab" in a mapping that also holds a cell
named "a", the removal deletes the unrelated key "a" (and would delete
"b") while the key "ab" itself survives in both folded mappings. -/
theorem C2_remove_wrong_keys :
    applyReducer ([("ab", "x + 1"), ("a", "2")] : Obj String)
        (Reducer.omit "ab") = [("ab", "x + 1")]
    ∧ (applyReducer ([("ab", "x + 1"), ("a", "2")] : Obj String)
        (Reducer.omit "ab")).lookup "ab" = some "x + 1"
    ∧ (applyReducer ([("ab", "x + 1"), ("a", "2")] : Obj String)
        (Reducer.omit "ab")).lookup "a" = none := by
  refine ⟨by decide, by decide, by decide⟩

/-- Claim C3: for every stored mapping M of names to valid formula texts
(unique keys, every text parses), bootstrapping the Sheet from M — seeding
the PersistedState fold with M and replaying the restored cells' target
publications — leaves every emitted PersistedState value exactly M: same
key set and, per key, the identical formula text. -/
theorem C3_roundtrip (parse : String → Option MathNode) (M : Obj String)
    (hnd : M.keys.Nodup) (hok : ∀ kv ∈ M, (parse kv.2).isSome) :
    ∀ st ∈ foldStates applyReducer M (bootstrapTargets parse M), st = M := by
  apply mem_foldStates_const
  intro e he
  simp only [bootstrapTargets, List.mem_map] at he
  obtain ⟨⟨k, v⟩, hkv, rfl⟩ := he
  simp only [applyReducer]
  rw [compile_text_of_parses parse v (hok (k, v) hkv)]
  exact Obj.set_eq_self M k v (Obj.lookup_of_mem_nodup M k v hnd hkv)

theorem C3_roundtrip_witness :
    (Obj.keys ([("a", "1"), ("b", "a + 1")] : Obj String)).Nodup
    ∧ (∀ kv ∈ ([("a", "1"), ("b", "a + 1")] : Obj String),
        (demoParse kv.2).isSome)
    ∧ (∀ st ∈ foldStates applyReducer
          ([("a", "1"), ("b", "a + 1")] : Obj String)
          (bootstrapTargets demoParse [("a", "1"), ("b", "a + 1")]),
        st = [("a", "1"), ("b", "a + 1")]) :=
  ⟨by decide, by decide,
   C3_roundtrip demoParse [("a", "1"), ("b", "a + 1")]
     (by decide) (by decide)⟩

/-- Claim C4: for a cell whose current formula has free variables `vars`,
a scope change that leaves every tracked variable's value unchanged (for
example a change to an unrelated cell `y` not in `vars`) produces no new
narrowed-scope emission — the value-equal snapshot is suppressed by the
lens's `dropRepeats(R.equals)` — so the compiled expression is not
re-evaluated; a change to the value of a tracked variable `x` produces
exactly one new narrowed snapshot and hence one re-evaluation. -/
theorem C4_dependency_narrowing (vars : List String)
    (tr : List (Obj (Option Value))) (s s' s'' : Obj (Option Value))
    (x : String)
    (hlast : tr.getLast? = some s)
    (hunrel : ∀ v ∈ vars, (Obj.lookup s' v).join = (Obj.lookup s v).join)
    (hx : x ∈ vars)
    (hchg : (Obj.lookup s'' x).join ≠ (Obj.lookup s x).join) :
    narrowedTrace vars (tr ++ [s']) = narrowedTrace vars tr
    ∧ narrowedTrace vars (tr ++ [s'']) =
        narrowedTrace vars tr ++ [lensScope vars s''] := by
  cases tr with
  | nil => simp at hlast
  | cons t0 ts =>
      rw [getLast?_eq_lastD] at hlast
      have hs : lastD t0 ts = s := Option.some.inj hlast
      have hlastmap :
          lastD (lensScope vars t0) (ts.map (lensScope vars))
            = lensScope vars s := by
        rw [lastD_map, hs]
      constructor
      · have heq : lensScope vars s' = lensScope vars s :=
          lensScope_congr vars s' s hunrel
        simp only [narrowedTrace, List.cons_append, List.map_cons,
          List.map_append, List.map_nil]
        show uniq (lensScope vars t0 ::
            (ts.map (lensScope vars) ++ [lensScope vars s']))
          = uniq (lensScope vars t0 :: ts.map (lensScope vars))
        rw [heq, ← hlastmap, uniq_cons_snoc_eq]
      · have hne : lensScope vars s'' ≠ lensScope vars s :=
          lensScope_ne vars s'' s x hx hchg
        simp only [narrowedTrace, List.cons_append, List.map_cons,
          List.map_append, List.map_nil]
        show uniq (lensScope vars t0 ::
            (ts.map (lensScope vars) ++ [lensScope vars s'']))
          = uniq (lensScope vars t0 :: ts.map (lensScope vars))
              ++ [lensScope vars s'']
        apply uniq_cons_snoc_ne
        rw [hlastmap]
        exact hne

theorem C4_dependency_narrowing_witness :
    ([[("x", some 1), ("y", some 5)]] :
        List (Obj (Option Value))).getLast?
      = some [("x", some 1), ("y", some 5)]
    ∧ (∀ v ∈ (["x"] : List String),
        (Obj.lookup ([("x", some 1), ("y", some 9)] : Obj (Option Value))
            v).join
          = (Obj.lookup ([("x", some 1), ("y", some 5)] :
              Obj (Option Value)) v).join)
    ∧ "x" ∈ (["x"] : List String)
    ∧ (Obj.lookup ([("x", some 2), ("y", some 5)] : Obj (Option Value))
          "x").join
        ≠ (Obj.lookup ([("x", some 1), ("y", some 5)] :
            Obj (Option Value)) "x").join
    ∧ (narrowedTrace ["x"]
          ([[("x", some 1), ("y", some 5)]] ++ [[("x", some 1), ("y", some 9)]])
        = narrowedTrace ["x"] [[("x", some 1), ("y", some 5)]]
      ∧ narrowedTrace ["x"]
          ([[("x", some 1), ("y", some 5)]] ++ [[("x", some 2), ("y", some 5)]])
        = narrowedTrace ["x"] [[("x", some 1), ("y", some 5)]]
            ++ [lensScope ["x"] [("x", some 2), ("y", some 5)]]) :=
  ⟨by decide, by decide, by decide, by decide,
   C4_dependency_narrowing ["x"] [[("x", some 1), ("y", some 5)]]
     [("x", some 1), ("y", some 5)] [("x", some 1), ("y", some 9)]
     [("x", some 2), ("y", some 5)] "x"
     (by decide) (by decide) (by decide) (by decide)⟩

/-- Claim C5: a formula text edit that fails to parse compiles to the
invalid marker, which `.filter(f => f.ok)` drops before publication: the
trace of published (valid) formulas is unchanged, so the previously
accepted formula and its value remain in effect; every published formula
is valid, so the invalid one is never folded into the Scope or written to
PersistedState; and when the failing text is a new edit a diagnostic is
logged. -/
theorem C5_invalid_dropped (parse : String → Option MathNode)
    (edits : List String) (t : String) (hfail : parse t = none) :
    formulaTrace parse (edits ++ [t]) = formulaTrace parse edits
    ∧ (∀ f ∈ formulaTrace parse (edits ++ [t]), f.ok = true)
    ∧ (edits.getLast? ≠ some t →
        parseDiagnostics parse (edits ++ [t])
          = parseDiagnostics parse edits ++ [t]) := by
  have hok : (compile parse t).ok = false :=
    compile_not_ok_of_parse_none parse t hfail
  refine ⟨?_, ?_, ?_⟩
  · rcases uniq_snoc_cases edits t with h | h
    · simp only [formulaTrace, h]
    · simp only [formulaTrace, h, List.map_append, List.map_cons,
        List.map_nil, List.filter_append]
      rw [List.filter_cons_of_neg]
      · simp
      · simp [hok]
  · intro f hf
    exact (List.mem_filter.mp hf).2
  · intro hne
    cases edits with
    | nil =>
        simp [parseDiagnostics, uniq, uniqAux, hfail]
    | cons e es =>
        have hlast : lastD e es ≠ t := by
          intro heq
          apply hne
          rw [getLast?_eq_lastD, heq]
        have ht : t ≠ lastD e es := fun h => hlast h.symm
        simp only [parseDiagnostics, List.cons_append]
        rw [uniq_cons_snoc_ne e t es ht, List.filter_append]
        rw [List.filter_cons_of_pos]
        · simp
        · simp [hfail]

theorem C5_invalid_dropped_witness :
    demoParse "1 + " = none
    ∧ (formulaTrace demoParse (["1 + 2"] ++ ["1 + "])
          = formulaTrace demoParse ["1 + 2"]
      ∧ (∀ f ∈ formulaTrace demoParse (["1 + 2"] ++ ["1 + "]), f.ok = true)
      ∧ ((["1 + 2"] : List String).getLast? ≠ some "1 + " →
          parseDiagnostics demoParse (["1 + 2"] ++ ["1 + "])
            = parseDiagnostics demoParse ["1 + 2"] ++ ["1 + "])) :=
  ⟨by decide, C5_invalid_dropped demoParse ["1 + 2"] "1 + " (by decide)⟩

/-- Claim C6: for an accepted formula and a narrowed-scope snapshot whose
evaluation throws, the `R.tryCatch` wrapper makes the cell's value for
that snapshot `undefined` and the handler logs the diagnostic; the wrapped
evaluator is a total function so the failure never reaches the caller, and
on a later snapshot whose evaluation succeeds the value is the evaluated
result again (automatic recovery). -/
theorem C6_eval_error_undefined (f : MathNode)
    (s s' : Obj (Option Value)) (e : String) (v : Option Value)
    (herr : evalNode s f = Except.error e)
    (hok : evalNode s' f = Except.ok v) :
    safeEval f s = none ∧ evalDiag f s = [e] ∧ safeEval f s' = v := by
  refine ⟨?_, ?_, ?_⟩
  · simp [safeEval, herr]
  · simp [evalDiag, herr]
  · simp [safeEval, hok]

theorem C6_eval_error_undefined_witness :
    evalNode ([("x", none)] : Obj (Option Value))
        (.op2 "+" (.sym "x") (.num 1))
      = Except.error "Unexpected type of argument in function +"
    ∧ evalNode ([("x", some 2)] : Obj (Option Value))
        (.op2 "+" (.sym "x") (.num 1))
      = Except.ok (some 3)
    ∧ (safeEval (.op2 "+" (.sym "x") (.num 1))
          ([("x", none)] : Obj (Option Value)) = none
      ∧ evalDiag (.op2 "+" (.sym "x") (.num 1))
          ([("x", none)] : Obj (Option Value))
        = ["Unexpected type of argument in function +"]
      ∧ safeEval (.op2 "+" (.sym "x") (.num 1))
          ([("x", some 2)] : Obj (Option Value)) = some 3) :=
  ⟨rfl, rfl,
   C6_eval_error_undefined (.op2 "+" (.sym "x") (.num 1))
     [("x", none)] [("x", some 2)]
     "Unexpected type of argument in function +" (some 3) rfl rfl⟩

/-- Claim C7: for every name in a formula's free variables that is absent
from the current Scope (never defined, or defined then removed), the Scope
Lens still binds the name in the narrowed mapping — to `undefined` — and
evaluating a reference to it yields that `undefined` as an ordinary value,
not an error. -/
theorem C7_missing_variable_undefined (vars : List String)
    (scope : Obj (Option Value)) (x : String)
    (hx : x ∈ vars) (habsent : Obj.lookup scope x = none) :
    (lensScope vars scope).lookup x = some none
    ∧ evalNode (lensScope vars scope) (MathNode.sym x)
        = Except.ok none := by
  have h1 := lensScope_lookup vars scope x hx
  rw [habsent] at h1
  refine ⟨h1, ?_⟩
  simp only [evalNode, h1]
  rfl

theorem C7_missing_variable_undefined_witness :
    "x" ∈ (["x"] : List String)
    ∧ Obj.lookup ([] : Obj (Option Value)) "x" = none
    ∧ ((lensScope ["x"] ([] : Obj (Option Value))).lookup "x" = some none
      ∧ evalNode (lensScope ["x"] ([] : Obj (Option Value)))
          (MathNode.sym "x") = Except.ok none) :=
  ⟨by decide, by decide,
   C7_missing_variable_undefined ["x"] [] "x" (by decide) (by decide)⟩

/-- Claim C8: the storage write requests are the fold's state trace
deduplicated by `uniq` before serialization, so two consecutive equal
PersistedState values produce only one write, and any two consecutively
issued writes serialize different mappings (no write repeats the last
written value). -/
theorem C8_idempotent_persistence (states : List (Obj String))
    (s : Obj String) (h : states.getLast? = some s) :
    storageWrites (states ++ [s]) = storageWrites states
    ∧ List.Chain' (fun a b => a ≠ b) (uniq states) := by
  cases states with
  | nil => simp at h
  | cons st sts =>
      rw [getLast?_eq_lastD] at h
      have hs : lastD st sts = s := Option.some.inj h
      refine ⟨?_, chain_ne_uniq _⟩
      simp only [storageWrites, List.cons_append]
      rw [← hs, uniq_cons_snoc_eq]

theorem C8_idempotent_persistence_witness :
    ([[("a", "1")]] : List (Obj String)).getLast? = some [("a", "1")]
    ∧ (storageWrites ([[("a", "1")]] ++ [[("a", "1")]])
          = storageWrites [[("a", "1")]]
      ∧ List.Chain' (fun a b => a ≠ b) (uniq ([[("a", "1")]] :
          List (Obj String)))) :=
  ⟨by decide,
   C8_idempotent_persistence [[("a", "1")]] [("a", "1")] (by decide)⟩

/-- Claim C9: starting from a seed whose keys are distinct (the empty
Scope, or the JSON-loaded PersistedState), every mapping the fold emits
keeps at most one entry per distinct cell name, and a `set` reducer for a
name that collides with an existing entry overwrites that entry in place:
after the publication the name looks up the newly published value
(last-writer-wins in arrival order). -/
theorem C9_unique_names {α : Type} (seed : Obj α)
    (events : List (Reducer α)) (k : String) (v : α)
    (hnd : seed.keys.Nodup) :
    (∀ st ∈ foldStates applyReducer seed events, st.keys.Nodup)
    ∧ (List.foldl applyReducer seed
        (events ++ [Reducer.set k v])).lookup k = some v := by
  refine ⟨mem_foldStates_nodup events seed hnd, ?_⟩
  rw [List.foldl_append]
  simp only [List.foldl_cons, List.foldl_nil, applyReducer]
  exact Obj.lookup_set_self _ k v

theorem C9_unique_names_witness :
    (Obj.keys ([("a", "1")] : Obj String)).Nodup
    ∧ ((∀ st ∈ foldStates applyReducer ([("a", "1")] : Obj String)
          [Reducer.set "b" "2", Reducer.omit "a"], st.keys.Nodup)
      ∧ (List.foldl applyReducer ([("a", "1")] : Obj String)
          ([Reducer.set "b" "2", Reducer.omit "a"]
            ++ [Reducer.set "b" "3"])).lookup "b" = some "3") :=
  ⟨by decide,
   C9_unique_names [("a", "1")] [Reducer.set "b" "2", Reducer.omit "a"]
     "b" "3" (by decide)⟩

/-- Claim C10: the non-empty-and-non-reserved filter guards only the
interactive name edits; the restore payload's name enters `name$`
unfiltered, so for every restored cell the initial name — even the empty
string or a reserved built-in math name — becomes the cell's first Name,
and every later name in the trace is either that initial name or a
filtered (non-empty, non-reserved) interactive edit. -/
theorem C10_restore_name_unfiltered (n0 : String) (edits : List String) :
    (nameTrace (some n0) edits).head? = some n0
    ∧ (∀ x ∈ nameTrace (some n0) edits,
        x = n0 ∨ (x ∈ edits ∧ validNameEdit x = true)) := by
  constructor
  · simp [nameTrace, uniq, Option.toList]
  · intro x hx
    simp only [nameTrace, Option.toList, List.cons_append, List.nil_append,
      uniq] at hx
    rcases List.mem_cons.mp hx with h1 | h2
    · left; exact h1
    · right
      have h3 := mem_uniqAux _ n0 x h2
      exact ⟨(List.mem_filter.mp h3).1, (List.mem_filter.mp h3).2⟩
